import Mathlib

/-!
Verification development for the backfiller tool (`main.go`): a shallow
embedding of the backfill orchestration engine — time-range resolution,
evaluation-instant generation, sample relabeling, and batch flushing —
together with theorems checking the natural-language specification
against this embedding.

Times and sample timestamps are int64 milliseconds in the source; they are
modelled as `Int`, with the int64 extremes written out explicitly where the
source uses `math.MaxInt64` / `math.MinInt64` as sentinels.  Sample values
are float64 in the source but are never computed on (only carried through),
so they are modelled by an `Int` stand-in.
-/

namespace Backfiller

/-- Constant `math.MaxInt64`, used as the sentinel initial value of `minTime`. -/
def int64Max : Int := 9223372036854775807

/-- Constant `math.MinInt64`, used as the sentinel initial value of `maxTime`. -/
def int64Min : Int := -9223372036854775808

/-- Function `min` from `main.go` (lines 267-272). -/
def goMin (a b : Int) : Int := if a > b then b else a

/-- Function `max` from `main.go` (lines 260-265). -/
def goMax (a b : Int) : Int := if a > b then a else b

/-! ## Label sets

Label sets (`labels.Labels`) are lists of name/value pairs.  The code
builds output labels with `labels.NewBuilder(...)` / `Builder.Set` /
`Builder.Labels`; `Builder.Set` with an empty value deletes the label
(empty labels are the same as missing labels in the Prometheus labels
package), and `Builder.Labels` keeps the result sorted by name. -/

/-- A label set: a list of (name, value) pairs. -/
abbrev Labels := List (String × String)

/-- Name `labels.MetricName`, the reserved metric-name label key. -/
def metricName : String := "__name__"

/-- Look up the value of label `k` (first match) in a label set. -/
def lookupLabel (k : String) (ls : Labels) : Option String :=
  (ls.find? (fun p => p.1 = k)).map (fun p => p.2)

/-- Operation `labels.Builder.Del`: drop every pair named `n`. -/
def delLabel (n : String) (ls : Labels) : Labels :=
  ls.filter (fun p => decide (¬ p.1 = n))

/-- Insert a pair keeping the name-sorted order `Builder.Labels` produces. -/
def insertLabelSorted (p : String × String) : Labels → Labels
  | [] => [p]
  | q :: rest => if p.1 ≤ q.1 then p :: q :: rest else q :: insertLabelSorted p rest

/-- Operation `labels.Builder.Set`: an empty value deletes the label, otherwise the
pair named `n` is replaced by (or inserted as) `(n, v)`. -/
def setLabel (n v : String) (ls : Labels) : Labels :=
  if v = "" then delLabel n ls else insertLabelSorted (n, v) (delLabel n ls)

/-! ## Data model -/

/-- One element of the `promql.Vector` a query returns: a metric label set,
a value (`sample.V`) and a timestamp (`sample.T`). -/
structure RawResult where
  metric : Labels
  v : Int
  t : Int
deriving DecidableEq, Repr

/-- Structure `tsdb.MetricSample` as appended to the batch `mss`. -/
structure Sample where
  labels : Labels
  value : Int
  timestampMs : Int
deriving DecidableEq, Repr

/-- Structure `recordingRule` from `main.go` (lines 33-37): output name, the rendered
query expression (`rule.vector.String()`), and the extra static label set. -/
structure RecordingRule where
  name : String
  vector : String
  lset : Labels
deriving DecidableEq, Repr

/-- The relabeling step of `backfillRules` (lines 219-224): overwrite the
metric-name label with the rule's output name, then set every extra label
of the rule. -/
def relabelLset (rule : RecordingRule) (raw : Labels) : Labels :=
  rule.lset.foldl (fun acc l => setLabel l.1 l.2 acc) (setLabel metricName rule.name raw)

/-- Build the `tsdb.MetricSample` for one raw result (line 225): relabeled
labels, the raw value `sample.V` and the raw timestamp `sample.T`. -/
def relabelSample (rule : RecordingRule) (res : RawResult) : Sample :=
  { labels := relabelLset rule res.metric, value := res.v, timestampMs := res.t }

/-! ## Evaluation instants

The scheduler loop is `for t := start; t <= end; t += evalInterval`
(line 212).  `genInstants` lists the values of `t` that loop visits, via an
explicit count of iterations (the loop does not terminate for a
non-positive interval; `genInstants` returns `[]` there, and every theorem
about it assumes a positive interval). -/

/-- Iterations of the loop body: `n` steps starting at `t`, stepping by `i`. -/
def instantsAux (i : Int) : Nat → Int → List Int
  | 0, _ => []
  | n + 1, t => t :: instantsAux i n (t + i)

/-- Number of iterations of the scheduler loop over `[s, e]` with step `i`. -/
def numInstants (s e i : Int) : Nat :=
  if i ≤ 0 then 0 else if e < s then 0 else ((e - s) / i).toNat + 1

/-- The evaluation instants visited by `for t := start; t <= end; t += i`. -/
def genInstants (s e i : Int) : List Int :=
  instantsAux i (numInstants s e i) s

/-- The instant sequence as the specification words it: `start + i`,
`start + 2*i`, … while `≤ end` — `start` itself excluded.  (Spec-side
definition, for comparison with `genInstants`.) -/
def specInstants (s e i : Int) : List Int :=
  genInstants (s + i) e i

/-! ## Time-range resolution

`getTimeRange` (lines 150-190), at millisecond granularity.  The storage
bounds are an input here; how the source computes them from the head and
the persisted blocks is `storageBounds` below.  The start/end overrides
are modelled after parsing: `none` when the flag is absent.  Parse errors
of `parseTime` are outside this claim set's scope. -/

/-- Lines 161-189 of `getTimeRange`: clamp the overrides into the storage
bounds and reject an inverted range. -/
def getTimeRange (minTime maxTime : Int) (start end_ : Option Int) :
    Except String (Int × Int) :=
  let stime : Int :=
    match start with
    | some s => if s < minTime then minTime else s
    | none => minTime
  let etime : Int :=
    match end_ with
    | some t => if t > maxTime then maxTime else t
    | none => maxTime
  if etime < stime then Except.error ("start time should be before end time")
  else Except.ok (stime, etime)

/-- Lines 156-159 of `getTimeRange`: the storage bounds fed into
resolution.  Each persisted block is a `(MinTime, MaxTime)` pair; the head
contributes `(headMin, headMax)`.  The loop folds `min` over the block
MinTimes; `maxTime` stays the head's MaxTime. -/
def storageBounds (headMin headMax : Int) (blocks : List (Int × Int)) :
    Int × Int :=
  (blocks.foldl (fun m b => goMin m b.1) headMin, headMax)

/-- Storage bounds as the specification words them: the least MinTime and
the greatest MaxTime across the head and every persisted block.
(Spec-side definition, for comparison with `storageBounds`.) -/
def specBounds (headMin headMax : Int) (blocks : List (Int × Int)) :
    Int × Int :=
  (blocks.foldl (fun m b => goMin m b.1) headMin,
   blocks.foldl (fun m b => goMax m b.2) headMax)

/-! ## The run of `backfillRules` (lines 203-258)

Observable behaviour is modelled as a trace of events: each query
invocation (with its success flag — a failed query is the logged,
skipped instant) and each `tsdb.CreateBlock` call (with the samples and
bounds handed over, and its success flag).  `tsdb.CreateBlock` outcomes
are an oracle `cb : Nat → Bool` indexed by the number of calls made so
far; the query capability is `q : String → Int → Except Unit (List
RawResult)` taking the rule's expression string and the instant.  A run
result of `none` means the function hit `return` on a failed
`CreateBlock`. -/

/-- One batch flush handed to `tsdb.CreateBlock`: the sample slice and the
`minTime` / `maxTime` arguments. -/
structure Flush where
  mss : List Sample
  minT : Int
  maxT : Int
deriving DecidableEq, Repr

/-- Trace events of a run. -/
inductive Event where
  | query (expr : String) (t : Int) (ok : Bool)
  | create (f : Flush) (ok : Bool)
deriving DecidableEq, Repr

/-- The batch accumulator: `mss`, `minTime`, `maxTime` of lines 207-209. -/
structure BatchState where
  mss : List Sample
  minT : Int
  maxT : Int
deriving DecidableEq, Repr

/-- Whole mutable state of the run: the batch plus the `CreateBlock` call
counter (the oracle index). -/
structure RunState where
  batch : BatchState
  cbIdx : Nat
deriving DecidableEq, Repr

/-- The empty batch with sentinel bounds (lines 207-209 and 238-240). -/
def initBatch : BatchState :=
  { mss := [], minT := int64Max, maxT := int64Min }

/-- Run state at entry of `backfillRules`. -/
def initRun : RunState :=
  { batch := initBatch, cbIdx := 0 }

/-- Lines 225-242 for a single relabeled sample: append it, update the
running bounds, and flush through `tsdb.CreateBlock` when the batch length
reaches `maxSamples`. -/
def appendOne (maxSamples : Int) (cb : Nat → Bool) (s : Sample) (st : RunState) :
    List Event × Option RunState :=
  let mss := st.batch.mss ++ [s]
  let mnT := goMin st.batch.minT s.timestampMs
  let mxT := goMax st.batch.maxT s.timestampMs
  if (mss.length : Int) = maxSamples then
    let ok := cb st.cbIdx
    ([Event.create { mss := mss, minT := mnT, maxT := mxT } ok],
     if ok then some { batch := initBatch, cbIdx := st.cbIdx + 1 } else none)
  else
    ([], some { batch := { mss := mss, minT := mnT, maxT := mxT }, cbIdx := st.cbIdx })

/-- The `for _, sample := range vector` loop (lines 218-243), aborting when
a flush fails. -/
def processSamples (maxSamples : Int) (cb : Nat → Bool) :
    List Sample → RunState → List Event × Option RunState
  | [], st => ([], some st)
  | s :: rest, st =>
    match appendOne maxSamples cb s st with
    | (evs, none) => (evs, none)
    | (evs, some st1) =>
      let r := processSamples maxSamples cb rest st1
      (evs ++ r.1, r.2)

/-- The instant loop of one rule (lines 212-244): query at each instant; on
a query error log it (`level.Warn`) and `continue` with the next instant;
otherwise relabel and batch every returned sample. -/
def runInstants (maxSamples : Int) (cb : Nat → Bool)
    (q : String → Int → Except Unit (List RawResult)) (rule : RecordingRule) :
    List Int → RunState → List Event × Option RunState
  | [], st => ([], some st)
  | t :: ts, st =>
    match q rule.vector t with
    | Except.error _ =>
      let r := runInstants maxSamples cb q rule ts st
      (Event.query rule.vector t false :: r.1, r.2)
    | Except.ok results =>
      match processSamples maxSamples cb (results.map (relabelSample rule)) st with
      | (evs, none) => (Event.query rule.vector t true :: evs, none)
      | (evs, some st1) =>
        let r := runInstants maxSamples cb q rule ts st1
        (Event.query rule.vector t true :: (evs ++ r.1), r.2)

/-- The outer `for _, rule := range rules` loop (lines 211-245); every rule
walks the same instant list (same `start`, `end`, `evalInterval`). -/
def runRules (maxSamples : Int) (cb : Nat → Bool)
    (q : String → Int → Except Unit (List RawResult)) (instants : List Int) :
    List RecordingRule → RunState → List Event × Option RunState
  | [], st => ([], some st)
  | rule :: rest, st =>
    match runInstants maxSamples cb q rule instants st with
    | (evs, none) => (evs, none)
    | (evs, some st1) =>
      let r := runRules maxSamples cb q instants rest st1
      (evs ++ r.1, r.2)

/-- Function `backfillRules` (lines 203-258): run every rule over the generated
instants, then flush the remaining samples (lines 247-255) — only when the
batch is non-empty, and only when no earlier flush aborted the run. -/
def backfillRules (rules : List RecordingRule) (start end_ evalInterval : Int)
    (maxSamples : Int) (q : String → Int → Except Unit (List RawResult))
    (cb : Nat → Bool) : List Event :=
  match runRules maxSamples cb q (genInstants start end_ evalInterval) rules initRun with
  | (evs, none) => evs
  | (evs, some st) =>
    if 0 < st.batch.mss.length then
      evs ++ [Event.create
        { mss := st.batch.mss, minT := st.batch.minT, maxT := st.batch.maxT }
        (cb st.cbIdx)]
    else evs

/-! ## Specification-side predicates and concrete inputs -/

/-- The start override as the spec describes it: raised to the storage
minimum when below it, the storage minimum when absent. -/
def clampStart (m : Int) : Option Int → Int
  | some s => max s m
  | none => m

/-- The end override as the spec describes it: lowered to the storage
maximum when above it, the storage maximum when absent. -/
def clampEnd (M : Int) : Option Int → Int
  | some t => min t M
  | none => M

/-- The timestamp fits in int64, as every `sample.T` in the source does. -/
def tsInRange (s : Sample) : Prop :=
  int64Min ≤ s.timestampMs ∧ s.timestampMs ≤ int64Max

instance (s : Sample) : Decidable (tsInRange s) := by
  unfold tsInRange
  infer_instance

/-- Value `m` is the true minimum timestamp over the samples `l`. -/
def isTrueMin (m : Int) (l : List Sample) : Prop :=
  (∃ s ∈ l, s.timestampMs = m) ∧ ∀ s ∈ l, m ≤ s.timestampMs

/-- Value `m` is the true maximum timestamp over the samples `l`. -/
def isTrueMax (m : Int) (l : List Sample) : Prop :=
  (∃ s ∈ l, s.timestampMs = m) ∧ ∀ s ∈ l, s.timestampMs ≤ m

/-- The batch bounds invariant: sentinels when empty, the true min/max over
the held samples otherwise. -/
def minmaxCorrect (b : BatchState) : Prop :=
  (b.mss = [] → b.minT = int64Max ∧ b.maxT = int64Min) ∧
  (b.mss ≠ [] → isTrueMin b.minT b.mss ∧ isTrueMax b.maxT b.mss)

/-- No failed block-creation call occurs in the trace. -/
def noFailCreate (tr : List Event) : Prop :=
  ∀ f : Flush, Event.create f false ∉ tr

/-- The trace of an aborted computation: it ends with the one failed
block-creation call, and nothing failed before it. -/
def abortShape (tr : List Event) : Prop :=
  ∃ t1 f, tr = t1 ++ [Event.create f false] ∧ noFailCreate t1

/-- The sample's value and timestamp were returned verbatim by the query
capability for some rule of the run. -/
def Originates (q : String → Int → Except Unit (List RawResult))
    (rules : List RecordingRule) (s : Sample) : Prop :=
  ∃ rule ∈ rules, ∃ t : Int, ∃ results : List RawResult, ∃ res ∈ results,
    q rule.vector t = Except.ok results ∧ s.value = res.v ∧ s.timestampMs = res.t

/-- A sample with a given timestamp, for concrete runs. -/
def tsample (t : Int) : Sample := { labels := [], value := 0, timestampMs := t }

/-- A concrete recording rule for concrete runs. -/
def rEx : RecordingRule := { name := "r", vector := "e", lset := [] }

/-- A query capability answering every instant with one result of value 7
carrying the instant as its timestamp. -/
def qEx : String → Int → Except Unit (List RawResult) :=
  fun _ t => Except.ok [{ metric := [("__name__", "up")], v := 7, t := t }]

/-- The sample a run builds from `qEx` at instant 0 under `rEx`. -/
def sEx0 : Sample := { labels := [("__name__", "r")], value := 7, timestampMs := 0 }

/-- A query capability failing at every instant. -/
def qErr : String → Int → Except Unit (List RawResult) := fun _ _ => Except.error ()

/-- Block creation always succeeds. -/
def cbTrue : Nat → Bool := fun _ => true

/-- Block creation always fails. -/
def cbFalse : Nat → Bool := fun _ => false

/-! ## Basic lemmas about `goMin` / `goMax` -/

theorem goMin_eq (a b : Int) : goMin a b = min a b := by
  unfold goMin
  rcases le_or_lt a b with h | h
  · rw [if_neg (not_lt.mpr h), min_eq_left h]
  · rw [if_pos h, min_eq_right h.le]

theorem goMax_eq (a b : Int) : goMax a b = max a b := by
  unfold goMax
  rcases le_or_lt a b with h | h
  · rw [if_neg (not_lt.mpr h), max_eq_right h]
  · rw [if_pos h, max_eq_left h.le]

/-! ## Lemmas about instant generation -/

theorem numInstants_of_lt (s e i : Int) (h : e < s) : numInstants s e i = 0 := by
  unfold numInstants
  rw [if_pos h]
  split <;> rfl

theorem numInstants_step (s e i : Int) (hi : 0 < i) (hse : s ≤ e) :
    numInstants s e i = numInstants (s + i) e i + 1 := by
  unfold numInstants
  rw [if_neg (not_le.mpr hi), if_neg (not_lt.mpr hse), if_neg (not_le.mpr hi)]
  rcases lt_or_le e (s + i) with h | h
  · rw [if_pos h]
    have h0 : (e - s) / i = 0 := Int.ediv_eq_zero_of_lt (by omega) (by omega)
    rw [h0]
    rfl
  · rw [if_neg (not_lt.mpr h)]
    have key : (e - (s + i)) / i = (e - s) / i - 1 := by
      have harith : e - (s + i) = (e - s) + (-1) * i := by ring
      rw [harith, Int.add_mul_ediv_right _ _ (by omega : i ≠ 0)]
      ring
    have h1 : 1 ≤ (e - s) / i := by
      rw [Int.le_ediv_iff_mul_le hi]
      omega
    rw [key]
    omega

theorem genInstants_nil (s e i : Int) (h : e < s) : genInstants s e i = [] := by
  unfold genInstants
  rw [numInstants_of_lt s e i h]
  rfl

theorem genInstants_cons (s e i : Int) (hi : 0 < i) (hse : s ≤ e) :
    genInstants s e i = s :: genInstants (s + i) e i := by
  unfold genInstants
  rw [numInstants_step s e i hi hse]
  rfl

theorem genInstants_mem_aux (i : Int) (hi : 0 < i) :
    ∀ (n : Nat) (s e : Int), numInstants s e i = n →
      ∀ t : Int, t ∈ genInstants s e i ↔ ∃ k : Nat, t = s + k * i ∧ t ≤ e := by
  intro n
  induction n with
  | zero =>
    intro s e hn t
    have hlt : e < s := by
      by_contra hcon
      rw [numInstants_step s e i hi (not_lt.mp hcon)] at hn
      omega
    rw [genInstants_nil s e i hlt]
    simp only [List.not_mem_nil, false_iff]
    rintro ⟨k, rfl, hle⟩
    have hk : (0 : Int) ≤ (k : Int) * i := by positivity
    omega
  | succ n ih =>
    intro s e hn t
    have hse : s ≤ e := by
      by_contra hcon
      rw [numInstants_of_lt s e i (not_le.mp hcon)] at hn
      omega
    rw [genInstants_cons s e i hi hse]
    have hnum : numInstants (s + i) e i = n := by
      have hstep := numInstants_step s e i hi hse
      omega
    rw [List.mem_cons, ih (s + i) e hnum t]
    constructor
    · rintro (rfl | ⟨k, rfl, hle⟩)
      · exact ⟨0, by simp, hse⟩
      · exact ⟨k + 1, by push_cast; ring, hle⟩
    · rintro ⟨k, rfl, hle⟩
      cases k with
      | zero => left; simp
      | succ k => right; exact ⟨k, by push_cast; ring, hle⟩

theorem genInstants_mem (s e i : Int) (hi : 0 < i) (t : Int) :
    t ∈ genInstants s e i ↔ ∃ k : Nat, t = s + k * i ∧ t ≤ e :=
  genInstants_mem_aux i hi (numInstants s e i) s e rfl t

theorem genInstants_pairwise_aux (i : Int) (hi : 0 < i) :
    ∀ (n : Nat) (s e : Int), numInstants s e i = n →
      (genInstants s e i).Pairwise (fun a b => a < b) := by
  intro n
  induction n with
  | zero =>
    intro s e hn
    have hlt : e < s := by
      by_contra hcon
      rw [numInstants_step s e i hi (not_lt.mp hcon)] at hn
      omega
    rw [genInstants_nil s e i hlt]
    exact List.Pairwise.nil
  | succ n ih =>
    intro s e hn
    have hse : s ≤ e := by
      by_contra hcon
      rw [numInstants_of_lt s e i (not_le.mp hcon)] at hn
      omega
    have hnum : numInstants (s + i) e i = n := by
      have hstep := numInstants_step s e i hi hse
      omega
    rw [genInstants_cons s e i hi hse]
    refine List.Pairwise.cons ?_ (ih (s + i) e hnum)
    intro b hb
    obtain ⟨k, rfl, -⟩ := (genInstants_mem (s + i) e i hi b).mp hb
    have hk : (0 : Int) ≤ (k : Int) * i := by positivity
    omega

theorem genInstants_pairwise (s e i : Int) (hi : 0 < i) :
    (genInstants s e i).Pairwise (fun a b => a < b) :=
  genInstants_pairwise_aux i hi (numInstants s e i) s e rfl

/-! ## Lemmas about time-range resolution -/

theorem if_lt_eq_max (s m : Int) : (if s < m then m else s) = max s m := by
  rcases lt_or_le s m with h | h
  · rw [if_pos h, max_eq_right h.le]
  · rw [if_neg (not_lt.mpr h), max_eq_left h]

theorem if_gt_eq_min (t M : Int) : (if t > M then M else t) = min t M := by
  rcases lt_or_le M t with h | h
  · rw [if_pos h, min_eq_right h.le]
  · rw [if_neg (not_lt.mpr h), min_eq_left h]

/-! ## Lemmas about the storage-bounds fold -/

theorem foldl_goMin_le (l : List Int) :
    ∀ init : Int, l.foldl goMin init ≤ init ∧ ∀ x ∈ l, l.foldl goMin init ≤ x := by
  induction l with
  | nil =>
    intro init
    exact ⟨le_refl _, by simp⟩
  | cons a l ih =>
    intro init
    have h := ih (goMin init a)
    have hmin : goMin init a ≤ init ∧ goMin init a ≤ a := by
      rw [goMin_eq]
      exact ⟨min_le_left _ _, min_le_right _ _⟩
    refine ⟨le_trans ?_ hmin.1, ?_⟩
    · exact h.1
    · intro x hx
      rcases List.mem_cons.mp hx with rfl | hx
      · exact le_trans h.1 hmin.2
      · exact h.2 x hx

theorem foldl_goMin_attained (l : List Int) :
    ∀ init : Int, l.foldl goMin init = init ∨ ∃ x ∈ l, l.foldl goMin init = x := by
  induction l with
  | nil =>
    intro init
    left
    rfl
  | cons a l ih =>
    intro init
    rcases ih (goMin init a) with h | ⟨x, hx, hex⟩
    · rw [List.foldl_cons, h, goMin_eq]
      rcases le_or_lt init a with hh | hh
      · left
        exact min_eq_left hh
      · right
        exact ⟨a, List.mem_cons_self a l, min_eq_right hh.le⟩
    · right
      exact ⟨x, List.mem_cons_of_mem a hx, hex⟩

/-! ## Lemmas about label lookup -/

theorem lookupLabel_nil (k : String) : lookupLabel k [] = none := rfl

theorem lookupLabel_cons (k : String) (p : String × String) (ls : Labels) :
    lookupLabel k (p :: ls) = if p.1 = k then some p.2 else lookupLabel k ls := by
  by_cases h : p.1 = k <;> simp [lookupLabel, List.find?_cons, h]

theorem lookupLabel_delLabel (k n : String) (ls : Labels) :
    lookupLabel k (delLabel n ls) = if k = n then none else lookupLabel k ls := by
  induction ls with
  | nil =>
    by_cases hkn : k = n <;> simp [delLabel, lookupLabel_nil, hkn]
  | cons p rest ih =>
    unfold delLabel at ih ⊢
    rw [List.filter_cons]
    by_cases hp : p.1 = n
    · have hcond : (decide ¬ p.1 = n) = false := by simp [hp]
      rw [hcond]
      by_cases hkn : k = n
      · simp only [Bool.false_eq_true, if_false, ih, if_pos hkn]
      · have hpk : ¬ p.1 = k := by
          rw [hp]
          exact fun hh => hkn hh.symm
        simp only [Bool.false_eq_true, if_false, ih, if_neg hkn, lookupLabel_cons,
          if_neg hpk]
    · have hcond : (decide ¬ p.1 = n) = true := by simp [hp]
      rw [hcond]
      simp only [if_true, lookupLabel_cons, ih]
      by_cases hpk : p.1 = k
      · have hkn : ¬ k = n := by
          rw [← hpk]
          exact hp
        rw [if_pos hpk, if_pos hpk, if_neg hkn]
      · rw [if_neg hpk, if_neg hpk]

theorem notMemKey_delLabel (n : String) (ls : Labels) :
    ∀ p ∈ delLabel n ls, p.1 ≠ n := by
  intro p hp
  unfold delLabel at hp
  rw [List.mem_filter] at hp
  have h2 := of_decide_eq_true hp.2
  exact h2

theorem lookupLabel_insertSorted (k n v : String) (ls : Labels)
    (h : ∀ p ∈ ls, p.1 ≠ n) :
    lookupLabel k (insertLabelSorted (n, v) ls) =
      if k = n then some v else lookupLabel k ls := by
  induction ls with
  | nil =>
    rw [insertLabelSorted, lookupLabel_cons, lookupLabel_nil]
    by_cases hkn : k = n
    · rw [if_pos hkn, if_pos hkn.symm]
    · rw [if_neg hkn, if_neg (fun hh => hkn hh.symm)]
  | cons q rest ih =>
    rw [insertLabelSorted]
    split
    · rw [lookupLabel_cons]
      by_cases hkn : k = n
      · rw [if_pos hkn.symm, if_pos hkn]
      · rw [if_neg (fun hh => hkn hh.symm), if_neg hkn]
    · rw [lookupLabel_cons, lookupLabel_cons,
        ih (fun p hp => h p (List.mem_cons_of_mem q hp))]
      by_cases hqk : q.1 = k
      · have hkn : ¬ k = n := by
          rw [← hqk]
          exact h q (List.mem_cons_self q rest)
        rw [if_pos hqk, if_pos hqk, if_neg hkn]
      · rw [if_neg hqk, if_neg hqk]

theorem lookupLabel_setLabel (k n v : String) (ls : Labels) :
    lookupLabel k (setLabel n v ls) =
      if k = n then (if v = "" then none else some v) else lookupLabel k ls := by
  unfold setLabel
  by_cases hv : v = ""
  · rw [if_pos hv, lookupLabel_delLabel]
    by_cases hkn : k = n
    · rw [if_pos hkn, if_pos hkn, if_pos hv]
    · rw [if_neg hkn, if_neg hkn]
  · rw [if_neg hv,
      lookupLabel_insertSorted k n v (delLabel n ls) (notMemKey_delLabel n ls),
      lookupLabel_delLabel]
    by_cases hkn : k = n
    · rw [if_pos hkn, if_pos hkn, if_neg hv]
    · rw [if_neg hkn, if_neg hkn, if_neg hkn]

theorem lookupLabel_eq_none_of_not_memKey (k : String) (ls : Labels)
    (h : k ∉ ls.map Prod.fst) : lookupLabel k ls = none := by
  induction ls with
  | nil => rfl
  | cons p rest ih =>
    rw [lookupLabel_cons]
    rw [List.map_cons, List.mem_cons] at h
    push_neg at h
    rw [if_neg (fun hh => h.1 hh.symm)]
    exact ih h.2

theorem lookupLabel_foldl_set (lset : Labels) :
    ∀ base : Labels, (∀ p ∈ lset, p.2 ≠ "") → (lset.map Prod.fst).Nodup →
      ∀ k : String,
        lookupLabel k (lset.foldl (fun acc l => setLabel l.1 l.2 acc) base) =
          match lookupLabel k lset with
          | some v => some v
          | none => lookupLabel k base := by
  induction lset with
  | nil =>
    intro base _ _ k
    rfl
  | cons p rest ih =>
    intro base hvals hnodup k
    rw [List.foldl_cons]
    rw [List.map_cons, List.nodup_cons] at hnodup
    rw [ih (setLabel p.1 p.2 base) (fun q hq => hvals q (List.mem_cons_of_mem p hq))
      hnodup.2 k]
    rw [lookupLabel_cons, lookupLabel_setLabel]
    by_cases hpk : p.1 = k
    · have hrest : lookupLabel k rest = none := by
        apply lookupLabel_eq_none_of_not_memKey
        rw [← hpk]
        exact hnodup.1
      rw [if_pos hpk, hrest, if_pos hpk.symm,
        if_neg (hvals p (List.mem_cons_self p rest))]
    · rw [if_neg hpk, if_neg (fun hh => hpk hh.symm)]

/-! ## Batch invariants -/

theorem minmaxCorrect_initBatch : minmaxCorrect initBatch :=
  ⟨fun _ => ⟨rfl, rfl⟩, fun hne => absurd rfl hne⟩

theorem isTrueMin_append (m : Int) (l : List Sample) (s : Sample) (h : isTrueMin m l) :
    isTrueMin (goMin m s.timestampMs) (l ++ [s]) := by
  rw [goMin_eq]
  obtain ⟨⟨w, hw, hwm⟩, hlb⟩ := h
  constructor
  · rcases le_or_lt m s.timestampMs with hh | hh
    · exact ⟨w, List.mem_append_left _ hw, by rw [hwm, min_eq_left hh]⟩
    · exact ⟨s, List.mem_append_right _ (List.mem_singleton_self s),
        (min_eq_right hh.le).symm⟩
  · intro x hx
    rcases List.mem_append.mp hx with hx | hx
    · exact le_trans (min_le_left _ _) (hlb x hx)
    · rw [List.mem_singleton] at hx
      rw [hx]
      exact min_le_right _ _

theorem isTrueMax_append (m : Int) (l : List Sample) (s : Sample) (h : isTrueMax m l) :
    isTrueMax (goMax m s.timestampMs) (l ++ [s]) := by
  rw [goMax_eq]
  obtain ⟨⟨w, hw, hwm⟩, hub⟩ := h
  constructor
  · rcases le_or_lt s.timestampMs m with hh | hh
    · exact ⟨w, List.mem_append_left _ hw, by rw [hwm, max_eq_left hh]⟩
    · exact ⟨s, List.mem_append_right _ (List.mem_singleton_self s),
        (max_eq_right hh.le).symm⟩
  · intro x hx
    rcases List.mem_append.mp hx with hx | hx
    · exact le_trans (hub x hx) (le_max_left _ _)
    · rw [List.mem_singleton] at hx
      rw [hx]
      exact le_max_right _ _

theorem isTrueMin_single (s : Sample) (hs : s.timestampMs ≤ int64Max) :
    isTrueMin (goMin int64Max s.timestampMs) [s] := by
  rw [goMin_eq, min_eq_right hs]
  refine ⟨⟨s, List.mem_singleton_self s, rfl⟩, ?_⟩
  intro x hx
  rw [List.mem_singleton] at hx
  rw [hx]

theorem isTrueMax_single (s : Sample) (hs : int64Min ≤ s.timestampMs) :
    isTrueMax (goMax int64Min s.timestampMs) [s] := by
  rw [goMax_eq, max_eq_right hs]
  refine ⟨⟨s, List.mem_singleton_self s, rfl⟩, ?_⟩
  intro x hx
  rw [List.mem_singleton] at hx
  rw [hx]

/-- Unfolding of `appendOne` written out with the appended batch made explicit. -/
theorem appendOne_eq (ms : Int) (cb : Nat → Bool) (s : Sample) (st : RunState) :
    appendOne ms cb s st =
      if ((st.batch.mss.length + 1 : Nat) : Int) = ms then
        ([Event.create { mss := st.batch.mss ++ [s],
                         minT := goMin st.batch.minT s.timestampMs,
                         maxT := goMax st.batch.maxT s.timestampMs } (cb st.cbIdx)],
         if cb st.cbIdx then some { batch := initBatch, cbIdx := st.cbIdx + 1 }
         else none)
      else
        ([], some { batch := { mss := st.batch.mss ++ [s],
                               minT := goMin st.batch.minT s.timestampMs,
                               maxT := goMax st.batch.maxT s.timestampMs },
                    cbIdx := st.cbIdx }) := by
  simp only [appendOne, List.length_append, List.length_singleton]

/-- One `appendOne` step preserves the bounds invariant, and any flush it
emits carries the true bounds of exactly its samples. -/
theorem appendOne_step_minmax (ms : Int) (cb : Nat → Bool) (s : Sample) (st : RunState)
    (hJ : minmaxCorrect st.batch) (hs : tsInRange s) :
    (∀ f ok, Event.create f ok ∈ (appendOne ms cb s st).1 →
      isTrueMin f.minT f.mss ∧ isTrueMax f.maxT f.mss) ∧
    ∀ st1, (appendOne ms cb s st).2 = some st1 → minmaxCorrect st1.batch := by
  have hbounds :
      isTrueMin (goMin st.batch.minT s.timestampMs) (st.batch.mss ++ [s]) ∧
      isTrueMax (goMax st.batch.maxT s.timestampMs) (st.batch.mss ++ [s]) := by
    by_cases hmss : st.batch.mss = []
    · have hsent := hJ.1 hmss
      rw [hmss, hsent.1, hsent.2, List.nil_append]
      exact ⟨isTrueMin_single s hs.2, isTrueMax_single s hs.1⟩
    · have hb := hJ.2 hmss
      exact ⟨isTrueMin_append _ _ s hb.1, isTrueMax_append _ _ s hb.2⟩
  rw [appendOne_eq]
  split
  · constructor
    · intro f ok hf
      simp only [List.mem_singleton, Event.create.injEq] at hf
      rw [hf.1]
      exact hbounds
    · intro st1 h1
      rcases hcb : cb st.cbIdx with - | -
      · rw [hcb] at h1
        simp at h1
      · rw [hcb] at h1
        simp only [if_true, Option.some.injEq] at h1
        rw [← h1]
        exact minmaxCorrect_initBatch
  · constructor
    · intro f ok hf
      simp at hf
    · intro st1 h1
      simp only [Option.some.injEq] at h1
      rw [← h1]
      refine ⟨fun habs => absurd habs (by simp), fun _ => hbounds⟩

/-- After a flush, `appendOne` resets the batch to the sentinel state. -/
theorem appendOne_step_reset (ms : Int) (cb : Nat → Bool) (s : Sample) (st : RunState) :
    ∀ evs st1, appendOne ms cb s st = (evs, some st1) → evs ≠ [] →
      st1.batch = initBatch := by
  rw [appendOne_eq]
  split
  · intro evs st1 h1 _
    rcases hcb : cb st.cbIdx with - | -
    · rw [hcb] at h1
      simp at h1
    · rw [hcb] at h1
      simp only [if_true, Prod.mk.injEq, Option.some.injEq] at h1
      rw [← h1.2]
  · intro evs st1 h1 hne
    simp only [Prod.mk.injEq] at h1
    exact absurd h1.1.symm hne

/-- One `appendOne` step preserves `batch length < maxSamples` and every
flush it emits holds exactly `maxSamples` samples. -/
theorem appendOne_step_len (ms : Int) (cb : Nat → Bool) (s : Sample) (st : RunState)
    (hms : 0 < ms) (hJ : (st.batch.mss.length : Int) < ms) :
    (∀ f ok, Event.create f ok ∈ (appendOne ms cb s st).1 →
      (f.mss.length : Int) = ms) ∧
    ∀ st1, (appendOne ms cb s st).2 = some st1 →
      (st1.batch.mss.length : Int) < ms := by
  rw [appendOne_eq]
  split
  case isTrue hcond =>
    constructor
    · intro f ok hf
      simp only [List.mem_singleton, Event.create.injEq] at hf
      rw [hf.1]
      simpa using hcond
    · intro st1 h1
      rcases hcb : cb st.cbIdx with - | -
      · rw [hcb] at h1
        simp at h1
      · rw [hcb] at h1
        simp only [if_true, Option.some.injEq] at h1
        rw [← h1]
        simpa [initBatch] using hms
  case isFalse hcond =>
    constructor
    · intro f ok hf
      simp at hf
    · intro st1 h1
      simp only [Option.some.injEq] at h1
      rw [← h1]
      simp only [List.length_append, List.length_singleton]
      push_cast at hcond ⊢
      omega

/-- One `appendOne` step preserves any per-sample predicate over the batch
and over every flush it emits. -/
theorem appendOne_step_pred (ms : Int) (cb : Nat → Bool) (P : Sample → Prop)
    (s : Sample) (st : RunState) (hJ : ∀ x ∈ st.batch.mss, P x) (hs : P s) :
    (∀ f ok, Event.create f ok ∈ (appendOne ms cb s st).1 → ∀ x ∈ f.mss, P x) ∧
    ∀ st1, (appendOne ms cb s st).2 = some st1 → ∀ x ∈ st1.batch.mss, P x := by
  have hall : ∀ x ∈ st.batch.mss ++ [s], P x := by
    intro x hx
    rcases List.mem_append.mp hx with hx | hx
    · exact hJ x hx
    · rw [List.mem_singleton] at hx
      rw [hx]
      exact hs
  rw [appendOne_eq]
  split
  · constructor
    · intro f ok hf
      simp only [List.mem_singleton, Event.create.injEq] at hf
      rw [hf.1]
      exact hall
    · intro st1 h1
      rcases hcb : cb st.cbIdx with - | -
      · rw [hcb] at h1
        simp at h1
      · rw [hcb] at h1
        simp only [if_true, Option.some.injEq] at h1
        rw [← h1]
        intro x hx
        simp [initBatch] at hx
  · constructor
    · intro f ok hf
      simp at hf
    · intro st1 h1
      simp only [Option.some.injEq] at h1
      rw [← h1]
      exact hall

/-- Every flush `appendOne` emits is non-empty (a sample was just
appended), with no hypotheses at all. -/
theorem appendOne_step_nonempty (ms : Int) (cb : Nat → Bool) (s : Sample) (st : RunState) :
    ∀ f ok, Event.create f ok ∈ (appendOne ms cb s st).1 → f.mss ≠ [] := by
  rw [appendOne_eq]
  split
  · intro f ok hf
    simp only [List.mem_singleton, Event.create.injEq] at hf
    rw [hf.1]
    simp
  · intro f ok hf
    simp at hf

/-! ## Lifting a step invariant through the run layers

`J` is a state invariant, `Pre` a precondition on each incoming sample,
`GF` a property of every flush handed to `tsdb.CreateBlock`.  If one
`appendOne` step preserves `J` and establishes `GF` on emitted flushes,
the same holds for the sample loop, the instant loop and the rule loop. -/

theorem processSamples_lift (ms : Int) (cb : Nat → Bool)
    (J : RunState → Prop) (Pre : Sample → Prop) (GF : Flush → Prop)
    (hstep : ∀ s st, J st → Pre s →
      (∀ f ok, Event.create f ok ∈ (appendOne ms cb s st).1 → GF f) ∧
      ∀ st1, (appendOne ms cb s st).2 = some st1 → J st1) :
    ∀ (l : List Sample) (st : RunState), J st → (∀ s ∈ l, Pre s) →
      (∀ f ok, Event.create f ok ∈ (processSamples ms cb l st).1 → GF f) ∧
      ∀ st1, (processSamples ms cb l st).2 = some st1 → J st1 := by
  intro l
  induction l with
  | nil =>
    intro st hJ _
    refine ⟨?_, ?_⟩
    · intro f ok hf
      simp [processSamples] at hf
    · intro st1 h1
      simp only [processSamples, Option.some.injEq] at h1
      rw [← h1]
      exact hJ
  | cons s rest ih =>
    intro st hJ hl
    have hs := hstep s st hJ (hl s (List.mem_cons_self s rest))
    rcases happ : appendOne ms cb s st with ⟨evs, r⟩
    rw [happ] at hs
    cases r with
    | none =>
      refine ⟨?_, ?_⟩
      · intro f ok hf
        simp only [processSamples, happ] at hf
        exact hs.1 f ok hf
      · intro st1 h1
        simp [processSamples, happ] at h1
    | some st1 =>
      have hJ1 : J st1 := hs.2 st1 rfl
      have hrest := ih st1 hJ1 (fun x hx => hl x (List.mem_cons_of_mem s hx))
      refine ⟨?_, ?_⟩
      · intro f ok hf
        simp only [processSamples, happ] at hf
        rcases List.mem_append.mp hf with h | h
        · exact hs.1 f ok h
        · exact hrest.1 f ok h
      · intro st2 h2
        simp only [processSamples, happ] at h2
        exact hrest.2 st2 h2

theorem runInstants_lift (ms : Int) (cb : Nat → Bool)
    (q : String → Int → Except Unit (List RawResult)) (rule : RecordingRule)
    (J : RunState → Prop) (Pre : Sample → Prop) (GF : Flush → Prop)
    (hstep : ∀ s st, J st → Pre s →
      (∀ f ok, Event.create f ok ∈ (appendOne ms cb s st).1 → GF f) ∧
      ∀ st1, (appendOne ms cb s st).2 = some st1 → J st1)
    (hq : ∀ t results, q rule.vector t = Except.ok results →
      ∀ res ∈ results, Pre (relabelSample rule res)) :
    ∀ (ts : List Int) (st : RunState), J st →
      (∀ f ok, Event.create f ok ∈ (runInstants ms cb q rule ts st).1 → GF f) ∧
      ∀ st1, (runInstants ms cb q rule ts st).2 = some st1 → J st1 := by
  intro ts
  induction ts with
  | nil =>
    intro st hJ
    refine ⟨?_, ?_⟩
    · intro f ok hf
      simp [runInstants] at hf
    · intro st1 h1
      simp only [runInstants, Option.some.injEq] at h1
      rw [← h1]
      exact hJ
  | cons t ts ih =>
    intro st hJ
    rcases hquery : q rule.vector t with err | results
    · have hrec := ih st hJ
      refine ⟨?_, ?_⟩
      · intro f ok hf
        simp only [runInstants, hquery] at hf
        rcases List.mem_cons.mp hf with h | h
        · exact Event.noConfusion h
        · exact hrec.1 f ok h
      · intro st1 h1
        simp only [runInstants, hquery] at h1
        exact hrec.2 st1 h1
    · have hpre : ∀ x ∈ results.map (relabelSample rule), Pre x := by
        intro x hx
        rcases List.mem_map.mp hx with ⟨res, hres, rfl⟩
        exact hq t results hquery res hres
      have hproc := processSamples_lift ms cb J Pre GF hstep
        (results.map (relabelSample rule)) st hJ hpre
      rcases hps : processSamples ms cb (results.map (relabelSample rule)) st
        with ⟨evs, r⟩
      rw [hps] at hproc
      cases r with
      | none =>
        refine ⟨?_, ?_⟩
        · intro f ok hf
          simp only [runInstants, hquery, hps] at hf
          rcases List.mem_cons.mp hf with h | h
          · exact Event.noConfusion h
          · exact hproc.1 f ok h
        · intro st1 h1
          simp [runInstants, hquery, hps] at h1
      | some st1 =>
        have hJ1 : J st1 := hproc.2 st1 rfl
        have hrec := ih st1 hJ1
        refine ⟨?_, ?_⟩
        · intro f ok hf
          simp only [runInstants, hquery, hps] at hf
          rcases List.mem_cons.mp hf with h | h
          · exact Event.noConfusion h
          · rcases List.mem_append.mp h with h2 | h2
            · exact hproc.1 f ok h2
            · exact hrec.1 f ok h2
        · intro st2 h2
          simp only [runInstants, hquery, hps] at h2
          exact hrec.2 st2 h2

theorem runRules_lift (ms : Int) (cb : Nat → Bool)
    (q : String → Int → Except Unit (List RawResult)) (instants : List Int)
    (J : RunState → Prop) (Pre : Sample → Prop) (GF : Flush → Prop) :
    ∀ (rules : List RecordingRule),
      (∀ s st, J st → Pre s →
        (∀ f ok, Event.create f ok ∈ (appendOne ms cb s st).1 → GF f) ∧
        ∀ st1, (appendOne ms cb s st).2 = some st1 → J st1) →
      (∀ rule ∈ rules, ∀ t results, q rule.vector t = Except.ok results →
        ∀ res ∈ results, Pre (relabelSample rule res)) →
      ∀ st : RunState, J st →
        (∀ f ok, Event.create f ok ∈ (runRules ms cb q instants rules st).1 → GF f) ∧
        ∀ st1, (runRules ms cb q instants rules st).2 = some st1 → J st1 := by
  intro rules
  induction rules with
  | nil =>
    intro _ _ st hJ
    refine ⟨?_, ?_⟩
    · intro f ok hf
      simp [runRules] at hf
    · intro st1 h1
      simp only [runRules, Option.some.injEq] at h1
      rw [← h1]
      exact hJ
  | cons rule rest ih =>
    intro hstep hq st hJ
    have hinst := runInstants_lift ms cb q rule J Pre GF hstep
      (hq rule (List.mem_cons_self rule rest)) instants st hJ
    rcases hri : runInstants ms cb q rule instants st with ⟨evs, r⟩
    rw [hri] at hinst
    cases r with
    | none =>
      refine ⟨?_, ?_⟩
      · intro f ok hf
        simp only [runRules, hri] at hf
        exact hinst.1 f ok hf
      · intro st1 h1
        simp [runRules, hri] at h1
    | some st1 =>
      have hJ1 : J st1 := hinst.2 st1 rfl
      have hrest := ih hstep (fun r hr => hq r (List.mem_cons_of_mem rule hr)) st1 hJ1
      refine ⟨?_, ?_⟩
      · intro f ok hf
        simp only [runRules, hri] at hf
        rcases List.mem_append.mp hf with h | h
        · exact hinst.1 f ok h
        · exact hrest.1 f ok h
      · intro st2 h2
        simp only [runRules, hri] at h2
        exact hrest.2 st2 h2

/-! ## Abort shape: a failed `tsdb.CreateBlock` ends the trace -/

theorem noFailCreate_nil : noFailCreate [] := by
  intro f hf
  simp at hf

theorem noFailCreate_append (t1 t2 : List Event) (h1 : noFailCreate t1)
    (h2 : noFailCreate t2) : noFailCreate (t1 ++ t2) := by
  intro f hf
  rcases List.mem_append.mp hf with h | h
  · exact h1 f h
  · exact h2 f h

theorem noFailCreate_cons_query (e : String) (t : Int) (b : Bool) (tr : List Event)
    (h : noFailCreate tr) : noFailCreate (Event.query e t b :: tr) := by
  intro f hf
  rcases List.mem_cons.mp hf with hh | hh
  · exact Event.noConfusion hh
  · exact h f hh

theorem abortShape_extend (evs tr : List Event) (h1 : noFailCreate evs)
    (h2 : abortShape tr) : abortShape (evs ++ tr) := by
  obtain ⟨t1, f, rfl, hnf⟩ := h2
  exact ⟨evs ++ t1, f, by rw [List.append_assoc], noFailCreate_append evs t1 h1 hnf⟩

theorem abortShape_cons_query (e : String) (t : Int) (b : Bool) (tr : List Event)
    (h : abortShape tr) : abortShape (Event.query e t b :: tr) := by
  obtain ⟨t1, f, rfl, hnf⟩ := h
  exact ⟨Event.query e t b :: t1, f, rfl, noFailCreate_cons_query e t b t1 hnf⟩

theorem appendOne_abort (ms : Int) (cb : Nat → Bool) (s : Sample) (st : RunState) :
    ((appendOne ms cb s st).2 ≠ none → noFailCreate (appendOne ms cb s st).1) ∧
    ((appendOne ms cb s st).2 = none → abortShape (appendOne ms cb s st).1) := by
  rw [appendOne_eq]
  split
  · rcases hcb : cb st.cbIdx with - | -
    · constructor
      · intro h2
        simp at h2
      · intro _
        exact ⟨[], _, rfl, noFailCreate_nil⟩
    · constructor
      · intro _ f hf
        simp at hf
      · intro h
        simp at h
  · constructor
    · intro _
      exact noFailCreate_nil
    · intro h
      simp at h

theorem processSamples_abort (ms : Int) (cb : Nat → Bool) :
    ∀ (l : List Sample) (st : RunState),
      ((processSamples ms cb l st).2 ≠ none →
        noFailCreate (processSamples ms cb l st).1) ∧
      ((processSamples ms cb l st).2 = none →
        abortShape (processSamples ms cb l st).1) := by
  intro l
  induction l with
  | nil =>
    intro st
    refine ⟨fun _ => noFailCreate_nil, ?_⟩
    intro h
    simp [processSamples] at h
  | cons s rest ih =>
    intro st
    have happ1 := appendOne_abort ms cb s st
    rcases happ : appendOne ms cb s st with ⟨evs, r⟩
    rw [happ] at happ1
    cases r with
    | none =>
      refine ⟨?_, ?_⟩
      · intro h
        simp [processSamples, happ] at h
      · intro _
        simp only [processSamples, happ]
        exact happ1.2 rfl
    | some st1 =>
      have hnf : noFailCreate evs := happ1.1 (by simp)
      have hrest := ih st1
      refine ⟨?_, ?_⟩
      · intro h2
        simp only [processSamples, happ] at h2 ⊢
        exact noFailCreate_append _ _ hnf (hrest.1 h2)
      · intro h2
        simp only [processSamples, happ] at h2 ⊢
        exact abortShape_extend _ _ hnf (hrest.2 h2)

theorem runInstants_abort (ms : Int) (cb : Nat → Bool)
    (q : String → Int → Except Unit (List RawResult)) (rule : RecordingRule) :
    ∀ (ts : List Int) (st : RunState),
      ((runInstants ms cb q rule ts st).2 ≠ none →
        noFailCreate (runInstants ms cb q rule ts st).1) ∧
      ((runInstants ms cb q rule ts st).2 = none →
        abortShape (runInstants ms cb q rule ts st).1) := by
  intro ts
  induction ts with
  | nil =>
    intro st
    refine ⟨fun _ => noFailCreate_nil, ?_⟩
    intro h
    simp [runInstants] at h
  | cons t ts ih =>
    intro st
    rcases hquery : q rule.vector t with err | results
    · have hrec := ih st
      refine ⟨?_, ?_⟩
      · intro h2
        simp only [runInstants, hquery] at h2 ⊢
        exact noFailCreate_cons_query _ _ _ _ (hrec.1 h2)
      · intro h2
        simp only [runInstants, hquery] at h2 ⊢
        exact abortShape_cons_query _ _ _ _ (hrec.2 h2)
    · have hps1 := processSamples_abort ms cb (results.map (relabelSample rule)) st
      rcases hps : processSamples ms cb (results.map (relabelSample rule)) st
        with ⟨evs, r⟩
      rw [hps] at hps1
      cases r with
      | none =>
        refine ⟨?_, ?_⟩
        · intro h
          simp [runInstants, hquery, hps] at h
        · intro _
          simp only [runInstants, hquery, hps]
          exact abortShape_cons_query _ _ _ _ (hps1.2 rfl)
      | some st1 =>
        have hnf : noFailCreate evs := hps1.1 (by simp)
        have hrec := ih st1
        refine ⟨?_, ?_⟩
        · intro h2
          simp only [runInstants, hquery, hps] at h2 ⊢
          exact noFailCreate_cons_query _ _ _ _
            (noFailCreate_append _ _ hnf (hrec.1 h2))
        · intro h2
          simp only [runInstants, hquery, hps] at h2 ⊢
          exact abortShape_cons_query _ _ _ _
            (abortShape_extend _ _ hnf (hrec.2 h2))

theorem runRules_abort (ms : Int) (cb : Nat → Bool)
    (q : String → Int → Except Unit (List RawResult)) (instants : List Int) :
    ∀ (rules : List RecordingRule) (st : RunState),
      ((runRules ms cb q instants rules st).2 ≠ none →
        noFailCreate (runRules ms cb q instants rules st).1) ∧
      ((runRules ms cb q instants rules st).2 = none →
        abortShape (runRules ms cb q instants rules st).1) := by
  intro rules
  induction rules with
  | nil =>
    intro st
    refine ⟨fun _ => noFailCreate_nil, ?_⟩
    intro h
    simp [runRules] at h
  | cons rule rest ih =>
    intro st
    have hri1 := runInstants_abort ms cb q rule instants st
    rcases hri : runInstants ms cb q rule instants st with ⟨evs, r⟩
    rw [hri] at hri1
    cases r with
    | none =>
      refine ⟨?_, ?_⟩
      · intro h
        simp [runRules, hri] at h
      · intro _
        simp only [runRules, hri]
        exact hri1.2 rfl
    | some st1 =>
      have hnf : noFailCreate evs := hri1.1 (by simp)
      have hrest := ih st1
      refine ⟨?_, ?_⟩
      · intro h2
        simp only [runRules, hri] at h2 ⊢
        exact noFailCreate_append _ _ hnf (hrest.1 h2)
      · intro h2
        simp only [runRules, hri] at h2 ⊢
        exact abortShape_extend _ _ hnf (hrest.2 h2)

/-- In `l1 ++ [x]`, an element `y` that is not in `l1` can only be the last
one: any decomposition `l2 ++ y :: l3` has `l3 = []`. -/
theorem last_elem_decomp {α : Type} (l1 : List α) (x : α) (l2 : List α) (y : α)
    (l3 : List α) (h : l1 ++ [x] = l2 ++ y :: l3) (hy : y ∉ l1) : l3 = [] := by
  rcases List.eq_nil_or_concat l3 with rfl | ⟨l4, z, rfl⟩
  · rfl
  · exfalso
    have h2 : l1 ++ [x] = (l2 ++ y :: l4) ++ [z] := by
      rw [h]
      simp
    have h3 := List.append_inj' h2 rfl
    apply hy
    rw [h3.1]
    exact List.mem_append_right _ (List.mem_cons_self y l4)

/-! ## Claim theorems -/

/-- C1 (counterexample): the claim says the instants for range [0,100000]
with interval 30000 are exactly 30000, 60000, 90000, with start itself
excluded; the scheduler loop `for t := start; t <= end; t += i` visits 0
as well, so start is included. -/
theorem instants_exclude_start_cex :
    genInstants 0 100000 30000 = [0, 30000, 60000, 90000] ∧
    specInstants 0 100000 30000 = [30000, 60000, 90000] := by
  decide

/-- C1 (amended): for every resolved range [start, end] and interval i > 0,
the instants generated for each rule (the `genInstants start end i` every
rule of `backfillRules` walks) are exactly start + k*i for natural k — the
start itself INCLUDED — while the instant is ≤ end, in strictly increasing
chronological order. -/
theorem instants_from_start (s e i : Int) (hi : 0 < i) :
    (∀ t : Int, t ∈ genInstants s e i ↔ ∃ k : Nat, t = s + k * i ∧ t ≤ e) ∧
    (genInstants s e i).Pairwise (fun a b => a < b) :=
  ⟨genInstants_mem s e i hi, genInstants_pairwise s e i hi⟩

/-- C1 witness: the amended claim evaluated on the spec example. -/
theorem instants_from_start_witness :
    (0 : Int) < 30000 ∧
    ((30000 : Int) ∈ genInstants 0 100000 30000 ↔
      ∃ k : Nat, (30000 : Int) = 0 + k * 30000 ∧ (30000 : Int) ≤ 100000) ∧
    (genInstants 0 100000 30000).Pairwise (fun a b => a < b) :=
  ⟨by decide, (instants_from_start 0 100000 30000 (by decide)).1 30000,
   (instants_from_start 0 100000 30000 (by decide)).2⟩

/-- C2: for storage bounds m ≤ M and parsed overrides, resolution yields
start = the start override raised to m when below it (m when absent) and
end = the end override lowered to M when above it (M when absent); when
after clamping start > end it fails with the configuration error, and no
range is produced. -/
theorem getTimeRange_clamps (m M : Int) (so eo : Option Int) (hmM : m ≤ M) :
    getTimeRange m M so eo =
      if clampEnd M eo < clampStart m so then
        Except.error ("start time should be before end time")
      else Except.ok (clampStart m so, clampEnd M eo) := by
  cases so <;> cases eo <;>
    simp only [getTimeRange, clampStart, clampEnd, if_lt_eq_max, if_gt_eq_min]

/-- C2 witness: storage bounds [100,1000] with overrides start=50,
end=2000 resolve to [100,1000]. -/
theorem getTimeRange_clamps_witness :
    (100 : Int) ≤ 1000 ∧
    getTimeRange 100 1000 (some 50) (some 2000) =
      (if clampEnd 1000 (some 2000) < clampStart 100 (some 50) then
        Except.error ("start time should be before end time")
      else Except.ok (clampStart 100 (some 50), clampEnd 1000 (some 2000))) :=
  ⟨by decide, getTimeRange_clamps 100 1000 (some 50) (some 2000) (by decide)⟩

/-- C9 (counterexample): with head bounds (0, 10) and one persisted block
(-5, 100), the code reports maximum 10 (the head's MaxTime only), while
the claim says the maximum is the greatest MaxTime over head and blocks,
which is 100: the block loop folds only MinTime. -/
theorem storage_bounds_head_max_cex :
    (storageBounds 0 10 [(-5, 100)]).2 = 10 ∧
    (specBounds 0 10 [(-5, 100)]).2 = 100 := by
  decide

/-- C9 (amended): the minimum fed into time-range resolution is the least
MinTime over the head and every persisted block; the maximum is the head's
MaxTime alone — persisted blocks do not contribute to it. -/
theorem storage_bounds_spec (headMin headMax : Int) (blocks : List (Int × Int)) :
    ((storageBounds headMin headMax blocks).1 ≤ headMin ∧
      (∀ b ∈ blocks, (storageBounds headMin headMax blocks).1 ≤ b.1) ∧
      ((storageBounds headMin headMax blocks).1 = headMin ∨
        ∃ b ∈ blocks, (storageBounds headMin headMax blocks).1 = b.1)) ∧
    (storageBounds headMin headMax blocks).2 = headMax := by
  have hfold : blocks.foldl (fun m b => goMin m b.1) headMin =
      (blocks.map Prod.fst).foldl goMin headMin := by
    rw [List.foldl_map]
  refine ⟨⟨?_, ?_, ?_⟩, rfl⟩
  · show blocks.foldl (fun m b => goMin m b.1) headMin ≤ headMin
    rw [hfold]
    exact (foldl_goMin_le (blocks.map Prod.fst) headMin).1
  · intro b hb
    show blocks.foldl (fun m b => goMin m b.1) headMin ≤ b.1
    rw [hfold]
    exact (foldl_goMin_le (blocks.map Prod.fst) headMin).2 b.1
      (List.mem_map_of_mem Prod.fst hb)
  · rcases foldl_goMin_attained (blocks.map Prod.fst) headMin with h | ⟨x, hx, hex⟩
    · left
      show blocks.foldl (fun m b => goMin m b.1) headMin = headMin
      rw [hfold]
      exact h
    · rcases List.mem_map.mp hx with ⟨b, hb, rfl⟩
      right
      refine ⟨b, hb, ?_⟩
      show blocks.foldl (fun m b => goMin m b.1) headMin = b.1
      rw [hfold]
      exact hex

/-- C9 witness: the amended claim evaluated at head (0,10) and one block
(-5,100). -/
theorem storage_bounds_spec_witness :
    ((-5, 100) ∈ [((-5 : Int), (100 : Int))]) ∧
    (storageBounds 0 10 [(-5, 100)]).1 ≤ (-5 : Int) ∧
    (storageBounds 0 10 [(-5, 100)]).2 = 10 :=
  ⟨by decide,
   (storage_bounds_spec 0 10 [(-5, 100)]).1.2.1 (-5, 100) (by decide),
   (storage_bounds_spec 0 10 [(-5, 100)]).2⟩

/-- C3: at every point of a run and for every arrival order, the batch
accumulator's runningMin/runningMax equal the true min/max timestamp over
exactly the samples currently held (the int64 sentinels when empty, hence
the reset to sentinels immediately after each flush, whose post-state is
the sentinel batch by the third conjunct); consequently every flush hands
the true min/max of exactly its own samples to block creation. -/
theorem batch_minmax_invariant (ms : Int) (cb : Nat → Bool) (arrivals : List Sample)
    (harr : ∀ s ∈ arrivals, tsInRange s) :
    (∀ l1 l2, arrivals = l1 ++ l2 → ∀ st1,
      (processSamples ms cb l1 initRun).2 = some st1 → minmaxCorrect st1.batch) ∧
    (∀ f ok, Event.create f ok ∈ (processSamples ms cb arrivals initRun).1 →
      isTrueMin f.minT f.mss ∧ isTrueMax f.maxT f.mss) ∧
    (∀ s st evs st1, appendOne ms cb s st = (evs, some st1) → evs ≠ [] →
      st1.batch = initBatch) := by
  have hstep : ∀ s st, minmaxCorrect st.batch → tsInRange s →
      (∀ f ok, Event.create f ok ∈ (appendOne ms cb s st).1 →
        isTrueMin f.minT f.mss ∧ isTrueMax f.maxT f.mss) ∧
      ∀ st1, (appendOne ms cb s st).2 = some st1 → minmaxCorrect st1.batch :=
    fun s st hJ hs => appendOne_step_minmax ms cb s st hJ hs
  refine ⟨?_, ?_, ?_⟩
  · intro l1 l2 hdec st1 h1
    have hpre : ∀ s ∈ l1, tsInRange s := by
      intro s hs
      apply harr
      rw [hdec]
      exact List.mem_append_left l2 hs
    exact (processSamples_lift ms cb (fun st => minmaxCorrect st.batch) tsInRange
      (fun f => isTrueMin f.minT f.mss ∧ isTrueMax f.maxT f.mss) hstep l1 initRun
      minmaxCorrect_initBatch hpre).2 st1 h1
  · exact (processSamples_lift ms cb (fun st => minmaxCorrect st.batch) tsInRange
      (fun f => isTrueMin f.minT f.mss ∧ isTrueMax f.maxT f.mss) hstep arrivals initRun
      minmaxCorrect_initBatch harr).1
  · exact fun s st => appendOne_step_reset ms cb s st

/-- C3 witness: the spec batching example — threshold 2 and arrival order
of timestamps [5,1,3,2,4]; the first flush carries (min,max) = (1,5). -/
theorem batch_minmax_invariant_witness :
    (∀ s ∈ [tsample 5, tsample 1, tsample 3, tsample 2, tsample 4], tsInRange s) ∧
    (isTrueMin 1 [tsample 5, tsample 1] ∧ isTrueMax 5 [tsample 5, tsample 1]) :=
  ⟨by decide,
   (batch_minmax_invariant 2 cbTrue [tsample 5, tsample 1, tsample 3, tsample 2, tsample 4]
       (by decide)).2.1
     { mss := [tsample 5, tsample 1], minT := 1, maxT := 5 } true (by decide)⟩

/-- C4: the output label set of a produced Sample is the raw label set
with the metric-name label overwritten by the rule's output name and then
every (key, value) of the rule's extra label set overwriting any label of
the same key; every other raw label is preserved unchanged.  (Stated via
lookup; `Builder.Set` deletes on empty values, so the rule name and extra
values are assumed non-empty, and extra keys unique as `labels.FromMap`
yields them.) -/
theorem relabel_label_set (rule : RecordingRule) (raw : Labels)
    (hname : rule.name ≠ "") (hvals : ∀ p ∈ rule.lset, p.2 ≠ "")
    (hnodup : (rule.lset.map Prod.fst).Nodup) (k : String) :
    lookupLabel k (relabelLset rule raw) =
      match lookupLabel k rule.lset with
      | some v => some v
      | none => if k = metricName then some rule.name else lookupLabel k raw := by
  unfold relabelLset
  rw [lookupLabel_foldl_set rule.lset (setLabel metricName rule.name raw) hvals hnodup k]
  cases hls : lookupLabel k rule.lset with
  | none =>
    show lookupLabel k (setLabel metricName rule.name raw) =
      if k = metricName then some rule.name else lookupLabel k raw
    rw [lookupLabel_setLabel]
    by_cases hk : k = metricName
    · rw [if_pos hk, if_pos hk, if_neg hname]
    · rw [if_neg hk, if_neg hk]
  | some v => rfl

/-- C4 witness: the spec relabeling example, looked up at the extra key. -/
theorem relabel_label_set_witness :
    ("test" : String) ≠ "" ∧
    (∀ p ∈ [(("key" : String), ("value" : String))], p.2 ≠ "") ∧
    ([(("key" : String), ("value" : String))].map Prod.fst).Nodup ∧
    lookupLabel ("key")
        (relabelLset { name := "test", vector := "e", lset := [("key", "value")] }
          [("__name__", "up"), ("instance", "h")]) =
      match lookupLabel ("key") [(("key" : String), ("value" : String))] with
      | some v => some v
      | none => if ("key") = metricName then some ("test")
        else lookupLabel ("key") [("__name__", "up"), ("instance", "h")] :=
  ⟨by decide, by decide, by decide,
   relabel_label_set { name := "test", vector := "e", lset := [("key", "value")] }
     [("__name__", "up"), ("instance", "h")] (by decide) (by decide) (by decide) "key"⟩

/-- C5: with a positive threshold, a flush fires exactly when an append
makes the batch reach the threshold — every in-run flush carries exactly
`maxSamples` samples — and after the last rule's last instant of a
successful (non-aborted) run, one final flush is issued iff the remaining
batch is non-empty, even below threshold. -/
theorem flush_exactly_at_threshold (rules : List RecordingRule)
    (start end_ i ms : Int) (q : String → Int → Except Unit (List RawResult))
    (cb : Nat → Bool) (hms : 0 < ms) :
    (∀ f ok, Event.create f ok ∈
        (runRules ms cb q (genInstants start end_ i) rules initRun).1 →
      (f.mss.length : Int) = ms) ∧
    ∀ st, (runRules ms cb q (genInstants start end_ i) rules initRun).2 = some st →
      (st.batch.mss = [] → backfillRules rules start end_ i ms q cb =
        (runRules ms cb q (genInstants start end_ i) rules initRun).1) ∧
      (st.batch.mss ≠ [] → backfillRules rules start end_ i ms q cb =
        (runRules ms cb q (genInstants start end_ i) rules initRun).1 ++
          [Event.create { mss := st.batch.mss, minT := st.batch.minT,
                          maxT := st.batch.maxT } (cb st.cbIdx)]) := by
  constructor
  · exact (runRules_lift ms cb q (genInstants start end_ i)
      (fun st => (st.batch.mss.length : Int) < ms) (fun _ => True)
      (fun f => (f.mss.length : Int) = ms) rules
      (fun s st hJ _ => appendOne_step_len ms cb s st hms hJ)
      (fun _ _ _ _ _ _ _ => trivial) initRun (by exact hms)).1
  · intro st hst
    rcases hr : runRules ms cb q (genInstants start end_ i) rules initRun with ⟨evs, r⟩
    rw [hr] at hst
    cases r with
    | none => simp at hst
    | some st2 =>
      simp only [Option.some.injEq] at hst
      subst hst
      constructor
      · intro hemp
        simp only [backfillRules, hr]
        rw [if_neg (by rw [hemp]; simp)]
      · intro hne
        simp only [backfillRules, hr]
        rw [if_pos (List.length_pos.mpr hne)]

/-- C5 witness: threshold 2 on a one-instant run leaves one sample, and
the final flush is issued for it. -/
theorem flush_exactly_at_threshold_witness :
    (0 : Int) < 2 ∧
    (runRules 2 cbTrue qEx (genInstants 0 0 1) [rEx] initRun).2 =
      some { batch := { mss := [sEx0], minT := 0, maxT := 0 }, cbIdx := 0 } ∧
    ([sEx0] ≠ ([] : List Sample)) ∧
    backfillRules [rEx] 0 0 1 2 qEx cbTrue =
      (runRules 2 cbTrue qEx (genInstants 0 0 1) [rEx] initRun).1 ++
        [Event.create { mss := [sEx0], minT := 0, maxT := 0 } true] :=
  ⟨by decide, by decide, by decide,
   ((flush_exactly_at_threshold [rEx] 0 0 1 2 qEx cbTrue (by decide)).2
       { batch := { mss := [sEx0], minT := 0, maxT := 0 }, cbIdx := 0 }
       (by decide)).2 (by decide)⟩

/-- C6: the block-creation collaborator is never invoked with an empty
sample list: in-run flushes always contain the sample just appended, and
the final flush only happens for a non-empty remaining batch. -/
theorem no_empty_block (rules : List RecordingRule) (start end_ i ms : Int)
    (q : String → Int → Except Unit (List RawResult)) (cb : Nat → Bool) :
    ∀ f ok, Event.create f ok ∈ backfillRules rules start end_ i ms q cb →
      f.mss ≠ [] := by
  have hrr := (runRules_lift ms cb q (genInstants start end_ i)
    (fun _ => True) (fun _ => True) (fun f => f.mss ≠ []) rules
    (fun s st _ _ => ⟨appendOne_step_nonempty ms cb s st, fun _ _ => trivial⟩)
    (fun _ _ _ _ _ _ _ => trivial) initRun trivial).1
  intro f ok hf
  rcases hr : runRules ms cb q (genInstants start end_ i) rules initRun with ⟨evs, r⟩
  rw [hr] at hrr
  cases r with
  | none =>
    simp only [backfillRules, hr] at hf
    exact hrr f ok hf
  | some st =>
    simp only [backfillRules, hr] at hf
    by_cases h0 : 0 < st.batch.mss.length
    · rw [if_pos h0] at hf
      rcases List.mem_append.mp hf with h | h
      · exact hrr f ok h
      · rw [List.mem_singleton] at h
        rcases Event.create.inj h with ⟨rfl, -⟩
        intro habs
        have habs2 : st.batch.mss = [] := habs
        rw [habs2] at h0
        simp at h0
    · rw [if_neg h0] at hf
      exact hrr f ok hf

/-- C6 witness: a run whose single flush holds one sample. -/
theorem no_empty_block_witness :
    (Event.create { mss := [sEx0], minT := 0, maxT := 0 } true ∈
      backfillRules [rEx] 0 0 1 1 qEx cbTrue) ∧
    ([sEx0] : List Sample) ≠ [] :=
  ⟨by decide,
   no_empty_block [rEx] 0 0 1 1 qEx cbTrue
     { mss := [sEx0], minT := 0, maxT := 0 } true (by decide)⟩

/-- C7: on a query-level error at an instant the engine logs it (the
`query … false` trace event), appends no sample, leaves the batch exactly
as it was, and continues with the next instants of the same rule. -/
theorem query_error_skips_instant (ms : Int) (cb : Nat → Bool)
    (q : String → Int → Except Unit (List RawResult)) (rule : RecordingRule)
    (t : Int) (ts : List Int) (st : RunState)
    (hq : q rule.vector t = Except.error ()) :
    runInstants ms cb q rule (t :: ts) st =
      (Event.query rule.vector t false :: (runInstants ms cb q rule ts st).1,
       (runInstants ms cb q rule ts st).2) := by
  simp only [runInstants, hq]

/-- C7 witness: the skip equation on a concrete failing query. -/
theorem query_error_skips_instant_witness :
    qErr rEx.vector 0 = Except.error () ∧
    runInstants 1 cbTrue qErr rEx (0 :: [5]) initRun =
      (Event.query rEx.vector 0 false :: (runInstants 1 cbTrue qErr rEx [5] initRun).1,
       (runInstants 1 cbTrue qErr rEx [5] initRun).2) :=
  ⟨rfl, query_error_skips_instant 1 cbTrue qErr rEx 0 [5] initRun rfl⟩

/-- C8: a failed block-creation call aborts the run immediately: the
failing create event is always the last event of the trace — no further
query and no further block-creation calls occur — while blocks from the
earlier, successful flushes stay in the trace untouched. -/
theorem createblock_failure_aborts (rules : List RecordingRule)
    (start end_ i ms : Int) (q : String → Int → Except Unit (List RawResult))
    (cb : Nat → Bool) :
    ∀ t1 f t2, backfillRules rules start end_ i ms q cb =
      t1 ++ Event.create f false :: t2 → t2 = [] := by
  intro t1 f t2 hdecomp
  have habort := runRules_abort ms cb q (genInstants start end_ i) rules initRun
  rcases hr : runRules ms cb q (genInstants start end_ i) rules initRun with ⟨evs, r⟩
  rw [hr] at habort
  cases r with
  | none =>
    simp only [backfillRules, hr] at hdecomp
    obtain ⟨tr, g, hevs, hnf⟩ := habort.2 rfl
    rw [show (evs, (none : Option RunState)).1 = evs from rfl] at hevs
    rw [hevs] at hdecomp
    exact last_elem_decomp tr (Event.create g false) t1 (Event.create f false) t2
      hdecomp (hnf f)
  | some st =>
    simp only [backfillRules, hr] at hdecomp
    have hnf : noFailCreate evs := habort.1 (by simp)
    by_cases h0 : 0 < st.batch.mss.length
    · rw [if_pos h0] at hdecomp
      rcases hcb : cb st.cbIdx with - | -
      · rw [hcb] at hdecomp
        exact last_elem_decomp evs _ t1 (Event.create f false) t2 hdecomp (hnf f)
      · rw [hcb] at hdecomp
        exfalso
        have hmem : Event.create f false ∈ t1 ++ Event.create f false :: t2 :=
          List.mem_append_right t1 (List.mem_cons_self _ t2)
        rw [← hdecomp] at hmem
        rcases List.mem_append.mp hmem with h | h
        · exact hnf f h
        · rw [List.mem_singleton] at h
          exact Bool.noConfusion (Event.create.inj h).2
    · rw [if_neg h0] at hdecomp
      exfalso
      have hmem : Event.create f false ∈ t1 ++ Event.create f false :: t2 :=
        List.mem_append_right t1 (List.mem_cons_self _ t2)
      rw [← hdecomp] at hmem
      exact hnf f hmem

/-- C8 witness: a run whose first flush fails ends right there. -/
theorem createblock_failure_aborts_witness :
    (backfillRules [rEx] 0 0 1 1 qEx cbFalse =
      [Event.query rEx.vector 0 true] ++
        Event.create { mss := [sEx0], minT := 0, maxT := 0 } false :: []) ∧
    ([] : List Event) = [] :=
  ⟨by decide,
   createblock_failure_aborts [rEx] 0 0 1 1 qEx cbFalse
     [Event.query rEx.vector 0 true] { mss := [sEx0], minT := 0, maxT := 0 } []
     (by decide)⟩

/-- C10: relabeling carries the raw result's value and timestamp through
unchanged, so every value/timestamp pair in any flushed batch was returned
verbatim by the query capability for some rule of the run. -/
theorem samples_carry_raw_values (rules : List RecordingRule)
    (start end_ i ms : Int) (q : String → Int → Except Unit (List RawResult))
    (cb : Nat → Bool) :
    (∀ rule res, (relabelSample rule res).value = res.v ∧
      (relabelSample rule res).timestampMs = res.t) ∧
    ∀ f ok, Event.create f ok ∈ backfillRules rules start end_ i ms q cb →
      ∀ x ∈ f.mss, Originates q rules x := by
  refine ⟨fun rule res => ⟨rfl, rfl⟩, ?_⟩
  have hrr := runRules_lift ms cb q (genInstants start end_ i)
    (fun st => ∀ x ∈ st.batch.mss, Originates q rules x) (Originates q rules)
    (fun f => ∀ x ∈ f.mss, Originates q rules x) rules
    (fun s st hJ hs => appendOne_step_pred ms cb (Originates q rules) s st hJ hs)
    (fun rule hrule t results hqeq res hres =>
      ⟨rule, hrule, t, results, res, hres, hqeq, rfl, rfl⟩)
    initRun (fun x hx => absurd hx (List.not_mem_nil x))
  intro f ok hf
  rcases hr : runRules ms cb q (genInstants start end_ i) rules initRun with ⟨evs, r⟩
  rw [hr] at hrr
  cases r with
  | none =>
    simp only [backfillRules, hr] at hf
    exact hrr.1 f ok hf
  | some st =>
    simp only [backfillRules, hr] at hf
    by_cases h0 : 0 < st.batch.mss.length
    · rw [if_pos h0] at hf
      rcases List.mem_append.mp hf with h | h
      · exact hrr.1 f ok h
      · rw [List.mem_singleton] at h
        rcases Event.create.inj h with ⟨rfl, -⟩
        exact hrr.2 st rfl
    · rw [if_neg h0] at hf
      exact hrr.1 f ok hf

/-- C10 witness: the flushed sample of a concrete run originates from the
query capability with value and timestamp verbatim. -/
theorem samples_carry_raw_values_witness :
    (Event.create { mss := [sEx0], minT := 0, maxT := 0 } true ∈
      backfillRules [rEx] 0 0 1 1 qEx cbTrue) ∧
    sEx0 ∈ ([sEx0] : List Sample) ∧ Originates qEx [rEx] sEx0 :=
  ⟨by decide, List.mem_singleton_self sEx0,
   (samples_carry_raw_values [rEx] 0 0 1 1 qEx cbTrue).2
     { mss := [sEx0], minT := 0, maxT := 0 } true (by decide) sEx0
     (List.mem_singleton_self sEx0)⟩

end Backfiller
